import Mathlib

/-!
# Verification of the Enterprise-RAG-Chatbot pipeline (`app.py`)

Shallow embedding of the pure pipeline functions of `app.py`:
`extract_text_from_pdfs`, `chunk_text`, `create_vector_store`,
`ask_question`, `extract_triples` and `build_graph`.

External collaborators (the pypdf page reader, the langchain
`RecursiveCharacterTextSplitter`, the FAISS vector store, the embedding
model, the generation model and the spaCy NER model) are not part of this
repository; where a claim depends on their behaviour they are modelled
from the specification and marked as such, or passed in as function
parameters where the code treats them as opaque (NER, LLM, embeddings).
-/

namespace RAGChatbot

/-- A retrieval chunk as produced by the langchain splitter: the code only
ever reads its `page_content` field (`d.page_content` in `ask_question`). -/
structure Document where
  page_content : String
deriving DecidableEq, Repr

/-- An abstract PDF file: an ordered list of pages. The page type is opaque
to `app.py`; `pypdf` supplies `reader.pages` and `page.extract_text()`. -/
structure PdfFile (Page : Type) where
  pages : List Page

/-- Embedding of `extract_text_from_pdfs` (`app.py` lines 30-36): iterate
the files in order, and for each file append `page.extract_text()` for each
page in order. `extract_text` stands for pypdf's per-page text extraction
(an empty string for a page with no extractable text). -/
def extract_text_from_pdfs {Page : Type} (extract_text : Page → String)
    (files : List (PdfFile Page)) : List String :=
  files.foldl (fun texts file =>
    file.pages.foldl (fun texts page => texts ++ [extract_text page]) texts) []

/-- Modelled from the spec: the langchain `RecursiveCharacterTextSplitter`
configured in `chunk_text` (`app.py` lines 38-43) is external library code
not in this repository. The spec describes its contract as a fixed maximum
chunk size of 800 characters with a fixed overlap of 150 characters between
consecutive chunks of the same source string; it is modelled as a sliding
character window of width 800 and stride 800 - 150 = 650. -/
def splitChunks (s : List Char) : List (List Char) :=
  if s.length ≤ 800 then [s]
  else s.take 800 :: splitChunks (s.drop 650)
termination_by s.length
decreasing_by
  simp only [List.length_drop]
  omega

/-- Embedding of `chunk_text` (`app.py` lines 38-43): split every input
text with the size-800/overlap-150 splitter and wrap each window as a
`Document` (`splitter.create_documents(texts)`). -/
def chunk_text (texts : List String) : List Document :=
  texts.flatMap (fun t => (splitChunks t.data).map (fun cs => { page_content := String.mk cs }))

/-- Modelled from the spec: the FAISS vector store built by
`create_vector_store` (`app.py` lines 47-48) is external library code not
in this repository; the code only passes it the chunk list, so the store
is the indexed chunk list. -/
structure VectorStore where
  docs : List Document
deriving DecidableEq, Repr

/-- Embedding of `create_vector_store` (`app.py` lines 47-48):
`FAISS.from_documents(docs, embedding_model)` indexes exactly `docs`. -/
def create_vector_store (docs : List Document) : VectorStore :=
  { docs := docs }

/-- Modelled from the spec: `vector_db.similarity_search(question, k)` of
the FAISS store is external library code not in this repository. Per the
spec it embeds the question with the same embedding model used for
indexing and returns the min(k, n) indexed chunks ordered by non-increasing
similarity of their embeddings to the question's embedding. `embed` stands
for the sentence-embedding model (a pure function of the text) and `sim`
for the index's similarity measure on embedding vectors. -/
def similarity_search {V : Type} (embed : String → V) (sim : V → V → Int)
    (db : VectorStore) (question : String) (k : Nat) : List Document :=
  (db.docs.mergeSort (fun a b =>
    decide (sim (embed question) (embed b.page_content)
      ≤ sim (embed question) (embed a.page_content)))).take k

/-- Embedding of `ask_question` (`app.py` lines 52-69): retrieve the top 3
chunks, join their texts with newlines into the context block, format the
fixed prompt around context and question, call the generation model, and
return the generated answer together with the retrieved chunks. `llm`
stands for `pipeline("text2text-generation", ...)`'s first generation. -/
def ask_question {V : Type} (embed : String → V) (sim : V → V → Int)
    (llm : String → String) (vector_db : VectorStore) (question : String) :
    String × List Document :=
  let docs := similarity_search embed sim vector_db question 3
  let context := String.intercalate "\n" (docs.map (fun d => d.page_content))
  let prompt :=
    "\nAnswer ONLY from the context below.\nIf not found, say \"Answer not found in the documents.\"\n\nContext:\n"
      ++ context ++ "\n\nQuestion:\n" ++ question ++ "\n\nAnswer:\n"
  (llm prompt, docs)

/-- A knowledge graph in the shape `networkx.Graph` presents to `app.py`:
a node list (insertion order, no duplicates) and an edge list of
`(endpoint, endpoint, label)` with unordered-endpoint identity. -/
structure Graph where
  nodes : List String
  edges : List (String × String × String)
deriving DecidableEq, Repr

/-- `networkx` node insertion: a node already present is not re-added. -/
def addNode (G : Graph) (n : String) : Graph :=
  if n ∈ G.nodes then G else { G with nodes := G.nodes ++ [n] }

/-- Whether a stored edge `e = (u', v', label)` has the unordered endpoint
pair `{u, v}` (`networkx.Graph` edges are undirected). -/
def isPair (u v : String) (e : String × String × String) : Bool :=
  (e.1 == u && e.2.1 == v) || (e.1 == v && e.2.1 == u)

/-- Embedding of `networkx.Graph.add_edge(s, o, label=p)`: both endpoints
are inserted as nodes if absent; if an edge with the same unordered
endpoint pair exists its attributes are overwritten (simple-graph
semantics, no multiplicity), otherwise the edge is appended. -/
def add_edge (G : Graph) (s o p : String) : Graph :=
  let G1 := addNode (addNode G s) o
  if G1.edges.any (isPair s o) then
    { G1 with edges := G1.edges.map (fun e => if isPair s o e then (e.1, e.2.1, p) else e) }
  else
    { G1 with edges := G1.edges ++ [(s, o, p)] }

/-- Embedding of `extract_triples` (`app.py` lines 73-81): for each text,
run NER to get the entity surface strings in document order, and emit one
triple `(entities[i], "related_to", entities[i+1])` per consecutive pair.
`ner` stands for the spaCy pipeline `[ent.text for ent in nlp(text).ents]`. -/
def extract_triples (ner : String → List String) (texts : List String) :
    List (String × String × String) :=
  texts.flatMap (fun text =>
    let entities := ner text
    (entities.zip entities.tail).map (fun ab => (ab.1, "related_to", ab.2)))

/-- Embedding of `build_graph` (`app.py` lines 83-87): fold `add_edge s o`
with attribute `label=p` over the triples `(s, p, o)`, starting from the
empty graph `nx.Graph()`. -/
def build_graph (triples : List (String × String × String)) : Graph :=
  triples.foldl (fun G t => add_edge G t.1 t.2.2 t.2.1) { nodes := [], edges := [] }

/-- `networkx.Graph.has_edge`, endpoint order irrelevant. -/
def hasEdge (G : Graph) (u v : String) : Bool :=
  G.edges.any (isPair u v)

/-- The `label` attribute of the edge `{u, v}`, when present. -/
def getLabel (G : Graph) (u v : String) : Option String :=
  (G.edges.find? (isPair u v)).map (fun e => e.2.2)

/-- Whether two triples `(s, p, o)` describe the same unordered endpoint
pair (in either orientation), ignoring the predicate. -/
def samePair (t1 t2 : String × String × String) : Bool :=
  (t1.1 == t2.1 && t1.2.2 == t2.2.2) || (t1.1 == t2.2.2 && t1.2.2 == t2.1)

/-- Deduplicate a triple list by unordered endpoint pair, keeping the first
occurrence of each pair. -/
def dedupPairs : List (String × String × String) → List (String × String × String)
  | [] => []
  | t :: ts => t :: dedupPairs (ts.filter (fun t2 => !samePair t t2))
termination_by ts => ts.length
decreasing_by
  simp only [List.length_cons]
  have h := List.length_filter_le (fun t2 => !samePair t t2) ts
  omega

/-! ### Basic facts about the edge-pair test -/

theorem isPair_iff {u v : String} {e : String × String × String} :
    isPair u v e = true ↔ (e.1 = u ∧ e.2.1 = v) ∨ (e.1 = v ∧ e.2.1 = u) := by
  simp [isPair]

theorem isPair_symm {u v : String} {e : String × String × String} :
    isPair u v e = isPair v u e := by
  simp only [isPair]
  cases h1 : e.1 == u <;> cases h2 : e.2.1 == v <;>
    cases h3 : e.1 == v <;> cases h4 : e.2.1 == u <;> simp_all

theorem isPair_self {s o p : String} : isPair s o (s, o, p) = true := by
  simp [isPair]

/-- If `(s, o, p)` itself has the pair `{u, v}`, then any edge with the pair
`{s, o}` also has the pair `{u, v}`. -/
theorem isPair_trans {u v s o p : String} {e : String × String × String}
    (h1 : isPair u v (s, o, p) = true) (h2 : isPair s o e = true) :
    isPair u v e = true := by
  rw [isPair_iff] at h1 h2 ⊢
  rcases h1 with ⟨h1a, h1b⟩ | ⟨h1a, h1b⟩ <;> rcases h2 with ⟨h2a, h2b⟩ | ⟨h2a, h2b⟩ <;>
    simp_all

/-! ### Structural lemmas about `addNode` and `add_edge` -/

theorem edges_addNode (G : Graph) (n : String) : (addNode G n).edges = G.edges := by
  unfold addNode; split <;> rfl

theorem mem_nodes_addNode {G : Graph} {n m : String} :
    n ∈ (addNode G m).nodes ↔ n ∈ G.nodes ∨ n = m := by
  unfold addNode
  split <;> rename_i h
  · constructor
    · exact fun hn => Or.inl hn
    · rintro (hn | rfl) <;> assumption
  · simp [List.mem_append]

theorem nodup_nodes_addNode {G : Graph} (h : G.nodes.Nodup) (m : String) :
    (addNode G m).nodes.Nodup := by
  unfold addNode
  split <;> rename_i hm
  · exact h
  · simp [List.nodup_append, h, List.disjoint_singleton, hm]

theorem nodes_add_edge (G : Graph) (s o p : String) :
    (add_edge G s o p).nodes = (addNode (addNode G s) o).nodes := by
  simp only [add_edge]
  split <;> rfl

theorem mem_nodes_add_edge {G : Graph} {s o p n : String} :
    n ∈ (add_edge G s o p).nodes ↔ n ∈ G.nodes ∨ n = s ∨ n = o := by
  rw [nodes_add_edge, mem_nodes_addNode, mem_nodes_addNode]
  tauto

theorem nodup_nodes_add_edge {G : Graph} (h : G.nodes.Nodup) (s o p : String) :
    (add_edge G s o p).nodes.Nodup := by
  rw [nodes_add_edge]
  exact nodup_nodes_addNode (nodup_nodes_addNode h s) o

/-- `isPair` does not look at the label, so relabelling an edge in place
does not change any pair test. -/
theorem isPair_relabel (u v s o p : String) (e : String × String × String) :
    isPair u v (if isPair s o e then (e.1, e.2.1, p) else e) = isPair u v e := by
  split <;> rfl

theorem hasEdge_add_edge (G : Graph) (s o p u v : String) :
    hasEdge (add_edge G s o p) u v = (hasEdge G u v || isPair u v (s, o, p)) := by
  rw [Bool.eq_iff_iff]
  simp only [hasEdge, Bool.or_eq_true, List.any_eq_true]
  unfold add_edge
  simp only [edges_addNode]
  split <;> rename_i hcond
  · simp only [List.mem_map]
    constructor
    · rintro ⟨e, ⟨e0, he0, rfl⟩, hp⟩
      rw [isPair_relabel] at hp
      exact Or.inl ⟨e0, he0, hp⟩
    · rintro (⟨e0, he0, hp⟩ | hp)
      · exact ⟨_, ⟨e0, he0, rfl⟩, by rw [isPair_relabel]; exact hp⟩
      · obtain ⟨e1, he1, hp1⟩ := List.any_eq_true.mp hcond
        exact ⟨_, ⟨e1, he1, rfl⟩, by rw [isPair_relabel]; exact isPair_trans hp hp1⟩
  · simp only [List.mem_append, List.mem_singleton]
    constructor
    · rintro ⟨e, he | rfl, hp⟩
      · exact Or.inl ⟨e, he, hp⟩
      · exact Or.inr hp
    · rintro (⟨e, he, hp⟩ | hp)
      · exact ⟨e, Or.inl he, hp⟩
      · exact ⟨(s, o, p), Or.inr rfl, hp⟩

/-- Folding `add_edge` over a triple list: an edge is present iff it was
present before or some triple in the list carries that unordered pair. -/
theorem hasEdge_foldl (ts : List (String × String × String)) (G : Graph) (u v : String) :
    hasEdge (ts.foldl (fun G t => add_edge G t.1 t.2.2 t.2.1) G) u v
      = (hasEdge G u v || ts.any (fun t => isPair u v (t.1, t.2.2, t.2.1))) := by
  induction ts generalizing G with
  | nil => simp
  | cons t ts ih =>
      simp only [List.foldl_cons, List.any_cons, ih, hasEdge_add_edge, Bool.or_assoc]

theorem hasEdge_build_graph (ts : List (String × String × String)) (u v : String) :
    hasEdge (build_graph ts) u v = ts.any (fun t => isPair u v (t.1, t.2.2, t.2.1)) := by
  have h := hasEdge_foldl ts { nodes := [], edges := [] } u v
  simpa [build_graph, hasEdge] using h

theorem mem_nodes_foldl (ts : List (String × String × String)) (G : Graph) (n : String) :
    n ∈ (ts.foldl (fun G t => add_edge G t.1 t.2.2 t.2.1) G).nodes
      ↔ n ∈ G.nodes ∨ ∃ t ∈ ts, n = t.1 ∨ n = t.2.2 := by
  induction ts generalizing G with
  | nil => simp
  | cons t ts ih =>
      simp only [List.foldl_cons, ih, mem_nodes_add_edge, List.mem_cons]
      constructor
      · rintro ((h | h | h) | ⟨t', ht', h⟩)
        · exact Or.inl h
        · exact Or.inr ⟨t, Or.inl rfl, Or.inl h⟩
        · exact Or.inr ⟨t, Or.inl rfl, Or.inr h⟩
        · exact Or.inr ⟨t', Or.inr ht', h⟩
      · rintro (h | ⟨t', rfl | ht', h⟩)
        · exact Or.inl (Or.inl h)
        · exact Or.inl (Or.inr h)
        · exact Or.inr ⟨t', ht', h⟩

theorem mem_nodes_build_graph (ts : List (String × String × String)) (n : String) :
    n ∈ (build_graph ts).nodes ↔ ∃ t ∈ ts, n = t.1 ∨ n = t.2.2 := by
  have h := mem_nodes_foldl ts { nodes := [], edges := [] } n
  simpa [build_graph] using h

theorem nodup_nodes_build_graph (ts : List (String × String × String)) :
    (build_graph ts).nodes.Nodup := by
  unfold build_graph
  generalize hG : ({ nodes := [], edges := [] } : Graph) = G0
  have h0 : G0.nodes.Nodup := by rw [← hG]; exact List.nodup_nil
  clear hG
  induction ts generalizing G0 with
  | nil => exact h0
  | cons t ts ih => exact ih _ (nodup_nodes_add_edge h0 _ _ _)

/-- Every label stored by `add_edge` with label `p` into a graph whose edge
labels are all `p` is `p`. -/
theorem labels_add_edge {G : Graph} {p : String}
    (h : ∀ e ∈ G.edges, e.2.2 = p) (s o : String) :
    ∀ e ∈ (add_edge G s o p).edges, e.2.2 = p := by
  unfold add_edge
  simp only [edges_addNode]
  split
  · intro e he
    obtain ⟨e0, he0, rfl⟩ := List.mem_map.mp he
    split
    · rfl
    · exact h e0 he0
  · intro e he
    rcases List.mem_append.mp he with he | he
    · exact h e he
    · simp only [List.mem_singleton] at he
      subst he; rfl

theorem labels_foldl (ts : List (String × String × String)) (p : String)
    (hts : ∀ t ∈ ts, t.2.1 = p) :
    ∀ (G0 : Graph), (∀ e ∈ G0.edges, e.2.2 = p) →
      ∀ e ∈ (ts.foldl (fun G t => add_edge G t.1 t.2.2 t.2.1) G0).edges, e.2.2 = p := by
  induction ts with
  | nil => intro G0 h0; simpa using h0
  | cons t ts ih =>
      intro G0 h0
      rw [List.foldl_cons]
      refine ih (fun t' ht' => hts t' (List.mem_cons_of_mem _ ht')) _ ?_
      show ∀ e ∈ (add_edge G0 t.1 t.2.2 t.2.1).edges, e.2.2 = p
      have hp : t.2.1 = p := hts t (List.mem_cons_self _ _)
      rw [hp]
      exact labels_add_edge h0 _ _

theorem labels_build_graph {ts : List (String × String × String)} {p : String}
    (hts : ∀ t ∈ ts, t.2.1 = p) :
    ∀ e ∈ (build_graph ts).edges, e.2.2 = p := by
  unfold build_graph
  exact labels_foldl ts p hts _ (by intro e he; simp at he)

theorem getLabel_eq_some {G : Graph} {u v p : String}
    (hedge : hasEdge G u v = true) (hlab : ∀ e ∈ G.edges, e.2.2 = p) :
    getLabel G u v = some p := by
  obtain ⟨e, he, hp⟩ := List.any_eq_true.mp hedge
  have hsome : (G.edges.find? (isPair u v)).isSome := by
    rw [List.find?_isSome]
    exact ⟨e, he, hp⟩
  obtain ⟨e', he'⟩ := Option.isSome_iff_exists.mp hsome
  have hmem : e' ∈ G.edges := List.mem_of_find?_eq_some he'
  unfold getLabel
  rw [he']
  simp [hlab e' hmem]

/-! ### Idempotence of `add_edge` on an already-present edge -/

theorem addNode_of_mem {G : Graph} {n : String} (h : n ∈ G.nodes) : addNode G n = G := by
  unfold addNode
  rw [if_pos h]

theorem hasEdge_symm (G : Graph) (u v : String) : hasEdge G u v = hasEdge G v u := by
  unfold hasEdge
  have h : isPair u v = isPair v u := funext (fun e => isPair_symm)
  rw [h]

theorem edges_add_edge (G : Graph) (s o p : String) :
    (add_edge G s o p).edges =
      if G.edges.any (isPair s o) then
        G.edges.map (fun e => if isPair s o e then (e.1, e.2.1, p) else e)
      else G.edges ++ [(s, o, p)] := by
  by_cases h : G.edges.any (isPair s o) = true
  · simp [add_edge, edges_addNode, h]
  · simp only [Bool.not_eq_true] at h
    simp [add_edge, edges_addNode, h]

/-- Re-adding an edge whose endpoints are already nodes and whose pair is
already present, with the label every matching stored edge already
carries, changes nothing. -/
theorem add_edge_eq_self {G : Graph} {s o p : String}
    (hs : s ∈ G.nodes) (ho : o ∈ G.nodes) (hedge : hasEdge G s o = true)
    (hlab : ∀ e ∈ G.edges, isPair s o e = true → e.2.2 = p) :
    add_edge G s o p = G := by
  unfold add_edge
  simp only [addNode_of_mem hs, addNode_of_mem ho]
  rw [if_pos (show G.edges.any (isPair s o) = true from hedge)]
  have hmap : G.edges.map (fun e => if isPair s o e then (e.1, e.2.1, p) else e) = G.edges := by
    have hcongr : G.edges.map (fun e => if isPair s o e then (e.1, e.2.1, p) else e)
        = G.edges.map id := by
      apply List.map_congr_left
      intro e he
      split <;> rename_i hm
      · rw [← hlab e he hm]; rfl
      · rfl
    rw [hcongr, List.map_id]
  rw [hmap]

/-- After `add_edge G s o p`, every stored edge matching the pair `{s, o}`
carries the label `p`. -/
theorem add_edge_label_matching {G : Graph} {s o p : String} :
    ∀ e ∈ (add_edge G s o p).edges, isPair s o e = true → e.2.2 = p := by
  unfold add_edge
  simp only [edges_addNode]
  split <;> rename_i hcond
  · intro e he hm
    obtain ⟨e0, _, rfl⟩ := List.mem_map.mp he
    rw [isPair_relabel] at hm
    rw [if_pos hm]
  · intro e he hm
    rcases List.mem_append.mp he with he | he
    · exact absurd (List.any_eq_true.mpr ⟨e, he, hm⟩) (by simpa using hcond)
    · simp only [List.mem_singleton] at he
      subst he; rfl

theorem mem_nodes_add_edge_of_mem {G : Graph} {s o p n : String}
    (h : n ∈ G.nodes) : n ∈ (add_edge G s o p).nodes :=
  mem_nodes_add_edge.mpr (Or.inl h)

theorem hasEdge_add_edge_self (G : Graph) (s o p : String) :
    hasEdge (add_edge G s o p) s o = true := by
  rw [hasEdge_add_edge, isPair_self, Bool.or_true]

theorem hasEdge_mono {G : Graph} {u v : String} (h : hasEdge G u v = true)
    (s o p : String) : hasEdge (add_edge G s o p) u v = true := by
  rw [hasEdge_add_edge, h, Bool.true_or]

/-- Two triples with the same unordered endpoint pair induce the same edge
pair test. -/
theorem isPair_congr_samePair {t t2 : String × String × String}
    (h : samePair t t2 = true) (e : String × String × String) :
    isPair t2.1 t2.2.2 e = isPair t.1 t.2.2 e := by
  simp only [samePair, Bool.or_eq_true, Bool.and_eq_true, beq_iff_eq] at h
  rcases h with ⟨h1, h2⟩ | ⟨h1, h2⟩
  · rw [← h1, ← h2]
  · rw [← h1, ← h2, isPair_symm]

/-- The invariant `build_graph` maintains when every triple carries the
label `p`: all stored edges have endpoints among the nodes and label `p`. -/
def WFp (p : String) (G : Graph) : Prop :=
  ∀ e ∈ G.edges, e.1 ∈ G.nodes ∧ e.2.1 ∈ G.nodes ∧ e.2.2 = p

theorem WFp_empty (p : String) : WFp p { nodes := [], edges := [] } := by
  intro e he
  simp at he

theorem WFp_add_edge {G : Graph} {p : String} (h : WFp p G) (s o : String) :
    WFp p (add_edge G s o p) := by
  intro e he
  have hnodes : ∀ n, n ∈ G.nodes → n ∈ (add_edge G s o p).nodes :=
    fun n hn => mem_nodes_add_edge_of_mem hn
  have hs : s ∈ (add_edge G s o p).nodes := mem_nodes_add_edge.mpr (Or.inr (Or.inl rfl))
  have ho : o ∈ (add_edge G s o p).nodes := mem_nodes_add_edge.mpr (Or.inr (Or.inr rfl))
  revert he
  rw [edges_add_edge]
  split
  · intro he
    obtain ⟨e0, he0, rfl⟩ := List.mem_map.mp he
    obtain ⟨h1, h2, h3⟩ := h e0 he0
    split
    · exact ⟨hnodes _ h1, hnodes _ h2, rfl⟩
    · exact ⟨hnodes _ h1, hnodes _ h2, h3⟩
  · intro he
    rcases List.mem_append.mp he with he | he
    · obtain ⟨h1, h2, h3⟩ := h e he
      exact ⟨hnodes _ h1, hnodes _ h2, h3⟩
    · simp only [List.mem_singleton] at he
      subst he
      exact ⟨hs, ho, rfl⟩

theorem add_edge_eq_self_of_WFp {G : Graph} {p s o : String}
    (hwf : WFp p G) (hedge : hasEdge G s o = true) : add_edge G s o p = G := by
  obtain ⟨e, he, hp⟩ := List.any_eq_true.mp hedge
  obtain ⟨h1, h2, _⟩ := hwf e he
  rcases isPair_iff.mp hp with ⟨ha, hb⟩ | ⟨ha, hb⟩
  · subst ha; subst hb
    exact add_edge_eq_self h1 h2 hedge (fun e' he' _ => (hwf e' he').2.2)
  · subst ha; subst hb
    exact add_edge_eq_self h2 h1 hedge (fun e' he' _ => (hwf e' he').2.2)

/-- Once the unordered pair of `t` is an edge, every triple matching that
pair is absorbed by the fold: filtering them out does not change the
resulting graph. -/
theorem foldl_drop_matching (t : String × String × String) (p : String) :
    ∀ (ts : List (String × String × String)) (G : Graph), WFp p G →
      (∀ tr ∈ ts, tr.2.1 = p) → hasEdge G t.1 t.2.2 = true →
      ts.foldl (fun G tr => add_edge G tr.1 tr.2.2 tr.2.1) G
        = (ts.filter (fun t2 => !samePair t t2)).foldl
            (fun G tr => add_edge G tr.1 tr.2.2 tr.2.1) G := by
  intro ts
  induction ts with
  | nil => intro G _ _ _; rfl
  | cons t2 ts ih =>
      intro G hwf hlab hedge
      have hlab2 : t2.2.1 = p := hlab t2 (List.mem_cons_self _ _)
      by_cases hsame : samePair t t2 = true
      · have hfilter : (t2 :: ts).filter (fun t2 => !samePair t t2)
            = ts.filter (fun t2 => !samePair t t2) := by
          rw [List.filter_cons, if_neg (by simp [hsame])]
        have hedge2 : hasEdge G t2.1 t2.2.2 = true := by
          unfold hasEdge
          have h : isPair t2.1 t2.2.2 = isPair t.1 t.2.2 :=
            funext (isPair_congr_samePair hsame)
          rw [h]
          exact hedge
        have habsorb : add_edge G t2.1 t2.2.2 t2.2.1 = G := by
          rw [hlab2]
          exact add_edge_eq_self_of_WFp hwf hedge2
        rw [hfilter, List.foldl_cons]
        show List.foldl _ (add_edge G t2.1 t2.2.2 t2.2.1) ts = _
        rw [habsorb]
        exact ih G hwf (fun tr htr => hlab tr (List.mem_cons_of_mem _ htr)) hedge
      · have hfilter : (t2 :: ts).filter (fun t2 => !samePair t t2)
            = t2 :: ts.filter (fun t2 => !samePair t t2) := by
          rw [List.filter_cons, if_pos (by simp [hsame])]
        rw [hfilter, List.foldl_cons, List.foldl_cons]
        have hwf2 : WFp p (add_edge G t2.1 t2.2.2 t2.2.1) := by
          rw [hlab2]
          exact WFp_add_edge hwf _ _
        have hedge2 : hasEdge (add_edge G t2.1 t2.2.2 t2.2.1) t.1 t.2.2 = true :=
          hasEdge_mono hedge _ _ _
        exact ih _ hwf2 (fun tr htr => hlab tr (List.mem_cons_of_mem _ htr)) hedge2

/-- Folding `add_edge` over a triple list with constant label `p` visits
only the first occurrence of each unordered pair. -/
theorem foldl_dedupPairs (p : String) :
    ∀ (ts : List (String × String × String)), (∀ tr ∈ ts, tr.2.1 = p) →
      ∀ (G : Graph), WFp p G →
      ts.foldl (fun G tr => add_edge G tr.1 tr.2.2 tr.2.1) G
        = (dedupPairs ts).foldl (fun G tr => add_edge G tr.1 tr.2.2 tr.2.1) G := by
  intro ts
  induction ts using dedupPairs.induct with
  | case1 => intro _ G _; rw [dedupPairs]
  | case2 t ts ih =>
      intro hlab G hwf
      rw [dedupPairs, List.foldl_cons, List.foldl_cons]
      have hlab1 : t.2.1 = p := hlab t (List.mem_cons_self _ _)
      set G1 := add_edge G t.1 t.2.2 t.2.1 with hG1
      have hwf1 : WFp p G1 := by
        rw [hG1, hlab1]
        exact WFp_add_edge hwf _ _
      have hedge1 : hasEdge G1 t.1 t.2.2 = true := hasEdge_add_edge_self G _ _ _
      rw [foldl_drop_matching t p ts G1 hwf1
        (fun tr htr => hlab tr (List.mem_cons_of_mem _ htr)) hedge1]
      exact ih (fun tr htr => hlab tr (List.mem_cons_of_mem _ (List.mem_of_mem_filter htr)))
        G1 hwf1

/-! ### PDF extraction and NER triple helpers -/

theorem pages_foldl_append {Page : Type} (extract_text : Page → String)
    (pages : List Page) :
    ∀ (acc : List String),
      pages.foldl (fun texts page => texts ++ [extract_text page]) acc
        = acc ++ pages.map extract_text := by
  induction pages with
  | nil => intro acc; simp
  | cons pg pages ih =>
      intro acc
      rw [List.foldl_cons, ih, List.map_cons]
      simp

theorem extract_text_from_pdfs_eq_flatMap {Page : Type} (extract_text : Page → String)
    (files : List (PdfFile Page)) :
    extract_text_from_pdfs extract_text files
      = files.flatMap (fun f => f.pages.map extract_text) := by
  unfold extract_text_from_pdfs
  suffices h : ∀ (acc : List String),
      files.foldl (fun texts file =>
        file.pages.foldl (fun texts page => texts ++ [extract_text page]) texts) acc
        = acc ++ files.flatMap (fun f => f.pages.map extract_text) by
    simpa using h []
  induction files with
  | nil => intro acc; simp
  | cons f files ih =>
      intro acc
      rw [List.foldl_cons, ih, pages_foldl_append, List.flatMap_cons]
      simp

/-- Every triple `extract_triples` emits carries the predicate
`"related_to"`. -/
theorem extract_triples_labels (ner : String → List String) (texts : List String) :
    ∀ tr ∈ extract_triples ner texts, tr.2.1 = "related_to" := by
  intro tr htr
  unfold extract_triples at htr
  obtain ⟨t, _, htr⟩ := List.mem_flatMap.mp htr
  obtain ⟨ab, _, rfl⟩ := List.mem_map.mp htr
  rfl

theorem extract_triples_append (ner : String → List String) (ts1 ts2 : List String) :
    extract_triples ner (ts1 ++ ts2) = extract_triples ner ts1 ++ extract_triples ner ts2 := by
  unfold extract_triples
  rw [List.flatMap_append]

/-- An entity list of length at most one has no consecutive pairs. -/
theorem zip_tail_nil {es : List String} (h : es.length ≤ 1) : es.zip es.tail = [] := by
  match es with
  | [] => rfl
  | [a] => rfl
  | a :: b :: rest => simp at h

/-- A member of a list with at least two elements is an endpoint of some
consecutive pair. -/
theorem mem_zip_tail_of_mem {s : String} :
    ∀ {es : List String}, s ∈ es → 2 ≤ es.length →
      ∃ pr ∈ es.zip es.tail, pr.1 = s ∨ pr.2 = s := by
  intro es
  induction es with
  | nil => intro h _; simp at h
  | cons a rest ih =>
      intro hmem hlen
      match rest, hlen with
      | b :: rest', _ =>
        rcases List.mem_cons.mp hmem with rfl | hmem'
        · exact ⟨(s, b), List.mem_cons_self _ _, Or.inl rfl⟩
        · rcases List.mem_cons.mp hmem' with rfl | hmem''
          · exact ⟨(a, s), List.mem_cons_self _ _, Or.inr rfl⟩
          · have hlen' : 2 ≤ (b :: rest').length := by
              cases rest' with
              | nil => simp at hmem''
              | cons c rest'' => simp
            obtain ⟨pr, hpr, hs⟩ := ih hmem' hlen'
            refine ⟨pr, ?_, hs⟩
            show pr ∈ (a :: b :: rest').zip (b :: rest')
            rw [List.zip_cons_cons]
            exact List.mem_cons_of_mem _ hpr

/-! ### Chunker window lemmas -/

theorem length_splitChunks_le (s : List Char) : ∀ c ∈ splitChunks s, c.length ≤ 800 := by
  induction s using splitChunks.induct with
  | case1 s h =>
      intro c hc
      rw [splitChunks, if_pos h] at hc
      simp only [List.mem_singleton] at hc
      subst hc
      exact h
  | case2 s h ih =>
      intro c hc
      rw [splitChunks, if_neg h] at hc
      rcases List.mem_cons.mp hc with rfl | hc
      · simp [List.length_take]
      · exact ih c hc

theorem head_splitChunks_take (t : List Char) :
    ∀ c ∈ (splitChunks t).head?, c.take 150 = t.take 150 := by
  rw [splitChunks]
  split
  · intro c hc
    simp only [List.head?_cons, Option.mem_def, Option.some.injEq] at hc
    subst hc
    rfl
  · intro c hc
    simp only [List.head?_cons, Option.mem_def, Option.some.injEq] at hc
    subst hc
    rw [List.take_take]
    norm_num

/-- Consecutive window chunks of the same source overlap in exactly the
last 150 characters of the earlier chunk, which are the first 150
characters of the later one. -/
theorem splitChunks_chain (s : List Char) :
    List.Chain' (fun c1 c2 => c2.take 150 = c1.drop 650 ∧ (c2.take 150).length = 150)
      (splitChunks s) := by
  induction s using splitChunks.induct with
  | case1 s h =>
      rw [splitChunks, if_pos h]
      exact List.chain'_singleton _
  | case2 s h ih =>
      rw [splitChunks, if_neg h]
      rw [List.chain'_cons']
      refine ⟨?_, ih⟩
      intro c2 hc2
      have htake : c2.take 150 = (s.drop 650).take 150 := head_splitChunks_take _ c2 hc2
      constructor
      · rw [htake, List.drop_take]
      · rw [htake, List.length_take, List.length_drop]
        simp only [not_le] at h
        omega

/-! ### No isolated nodes -/

theorem endpoints_preserved {G : Graph} (s o p : String) :
    ∀ e ∈ G.edges, ∃ e' ∈ (add_edge G s o p).edges, e'.1 = e.1 ∧ e'.2.1 = e.2.1 := by
  intro e he
  rw [edges_add_edge]
  split
  · refine ⟨if isPair s o e then (e.1, e.2.1, p) else e,
      List.mem_map.mpr ⟨e, he, rfl⟩, ?_⟩
    split <;> exact ⟨rfl, rfl⟩
  · exact ⟨e, List.mem_append.mpr (Or.inl he), rfl, rfl⟩

/-- Invariant: every node is an endpoint of some edge. -/
def NoIsolated (G : Graph) : Prop :=
  ∀ n ∈ G.nodes, ∃ e ∈ G.edges, n = e.1 ∨ n = e.2.1

theorem noIsolated_add_edge {G : Graph} (h : NoIsolated G) (s o p : String) :
    NoIsolated (add_edge G s o p) := by
  have hpair : ∃ e' ∈ (add_edge G s o p).edges, isPair s o e' = true :=
    List.any_eq_true.mp (hasEdge_add_edge_self G s o p)
  intro n hn
  rcases mem_nodes_add_edge.mp hn with hn | rfl | rfl
  · obtain ⟨e, he, hend⟩ := h n hn
    obtain ⟨e', he', h1, h2⟩ := endpoints_preserved s o p e he
    refine ⟨e', he', ?_⟩
    rcases hend with h3 | h3
    · exact Or.inl (h3.trans h1.symm)
    · exact Or.inr (h3.trans h2.symm)
  · obtain ⟨e', he', hp⟩ := hpair
    refine ⟨e', he', ?_⟩
    rcases isPair_iff.mp hp with ⟨h1, _⟩ | ⟨_, h2⟩
    · exact Or.inl h1.symm
    · exact Or.inr h2.symm
  · obtain ⟨e', he', hp⟩ := hpair
    refine ⟨e', he', ?_⟩
    rcases isPair_iff.mp hp with ⟨_, h2⟩ | ⟨h1, _⟩
    · exact Or.inr h2.symm
    · exact Or.inl h1.symm

theorem noIsolated_foldl (ts : List (String × String × String)) :
    ∀ (G : Graph), NoIsolated G →
      NoIsolated (ts.foldl (fun G t => add_edge G t.1 t.2.2 t.2.1) G) := by
  induction ts with
  | nil => intro G h; exact h
  | cons t ts ih =>
      intro G h
      rw [List.foldl_cons]
      exact ih _ (noIsolated_add_edge h _ _ _)

theorem noIsolated_build_graph (ts : List (String × String × String)) :
    NoIsolated (build_graph ts) := by
  unfold build_graph
  exact noIsolated_foldl ts _ (by intro n hn; simp at hn)

/-! ## Claim theorems -/

/-- C5: For every ordered collection of readable PDF files,
`extract_text_from_pdfs` returns a list whose length equals the total page
count summed across all files, with entries in file-then-page order (the
concatenation, file by file, of the per-page extracted texts). -/
theorem claim_C5_extract_pages {Page : Type} (extract_text : Page → String)
    (files : List (PdfFile Page)) :
    extract_text_from_pdfs extract_text files
        = files.flatMap (fun f => f.pages.map extract_text) ∧
      (extract_text_from_pdfs extract_text files).length
        = (files.map (fun f => f.pages.length)).sum := by
  refine ⟨extract_text_from_pdfs_eq_flatMap extract_text files, ?_⟩
  rw [extract_text_from_pdfs_eq_flatMap]
  simp only [List.length_flatMap]
  congr 1
  apply List.map_congr_left
  intro f _
  simp

/-- C7: A page whose text extraction yields the empty string is passed
through `extract_text_from_pdfs` unfiltered (it appears in the output),
and chunking the empty page text is non-fatal: it yields one
empty/degenerate chunk rather than raising an error. -/
theorem claim_C7_empty_page_non_fatal {Page : Type} (extract_text : Page → String)
    (files : List (PdfFile Page)) (f : PdfFile Page) (pg : Page)
    (hf : f ∈ files) (hp : pg ∈ f.pages) (hempty : extract_text pg = "") :
    "" ∈ extract_text_from_pdfs extract_text files ∧
      chunk_text [""] = [{ page_content := "" }] := by
  constructor
  · rw [extract_text_from_pdfs_eq_flatMap]
    exact List.mem_flatMap.mpr ⟨f, hf, List.mem_map.mpr ⟨pg, hp, hempty⟩⟩
  · have h : splitChunks ("".data) = [[]] := by
      rw [splitChunks]
      simp
    simp [chunk_text, h]

/-- Witness for C7 at a one-file, one-page input whose page text is empty. -/
theorem claim_C7_witness :
    "" ∈ extract_text_from_pdfs (fun _ : Unit => "") [{ pages := [()] }] ∧
      chunk_text [""] = [{ page_content := "" }] :=
  claim_C7_empty_page_non_fatal (fun _ : Unit => "") [{ pages := [()] }]
    { pages := [()] } () (List.mem_singleton.mpr rfl) (List.mem_singleton.mpr rfl) rfl

/-- C10: every node of a graph produced by `build_graph` is an endpoint of
at least one edge; nodes are only created as a side effect of adding an
edge, so the graph has no isolated nodes. -/
theorem claim_C10_no_isolated_nodes (ts : List (String × String × String))
    (n : String) (hn : n ∈ (build_graph ts).nodes) :
    ∃ e ∈ (build_graph ts).edges, n = e.1 ∨ n = e.2.1 :=
  noIsolated_build_graph ts n hn

/-- Witness for C10 on a concrete one-triple list. -/
theorem claim_C10_witness :
    ∃ e ∈ (build_graph [("a", "related_to", "b")]).edges, "a" = e.1 ∨ "a" = e.2.1 :=
  claim_C10_no_isolated_nodes [("a", "related_to", "b")] "a" (by decide)

/-- C9: if the recognized entity sequence of a text has two consecutive
occurrences of the same surface string, `extract_triples` emits a triple
with equal subject and object, and `build_graph` consequently contains a
self-loop edge on that node. -/
theorem claim_C9_self_loop (ner : String → List String) (t : String) (i : Nat)
    (e : String) (h1 : (ner t)[i]? = some e) (h2 : (ner t)[i + 1]? = some e) :
    (e, "related_to", e) ∈ extract_triples ner [t] ∧
      hasEdge (build_graph (extract_triples ner [t])) e e = true := by
  have hzip : ((ner t).zip (ner t).tail)[i]? = some (e, e) := by
    rw [List.getElem?_zip_eq_some]
    refine ⟨h1, ?_⟩
    rw [List.getElem?_tail]
    exact h2
  have hmem : (e, e) ∈ (ner t).zip (ner t).tail := List.getElem?_mem hzip
  have hsingle : extract_triples ner [t]
      = ((ner t).zip (ner t).tail).map (fun ab => (ab.1, "related_to", ab.2)) := by
    simp [extract_triples]
  have htr : (e, "related_to", e) ∈ extract_triples ner [t] := by
    rw [hsingle]
    exact List.mem_map.mpr ⟨(e, e), hmem, rfl⟩
  refine ⟨htr, ?_⟩
  rw [hasEdge_build_graph]
  exact List.any_eq_true.mpr ⟨(e, "related_to", e), htr, by simp [isPair]⟩

/-- Witness for C9 with an entity sequence repeating the string "x". -/
theorem claim_C9_witness :
    ("x", "related_to", "x") ∈ extract_triples (fun _ => ["x", "x"]) [""] ∧
      hasEdge (build_graph (extract_triples (fun _ => ["x", "x"]) [""])) "x" "x" = true :=
  claim_C9_self_loop (fun _ => ["x", "x"]) "" 0 "x" rfl rfl

/-- C2: the retrieval step of `ask_question` (which uses k = 3) returns
exactly min(3, n) chunks for a vector index holding n chunks, ordered by
non-increasing similarity of their embeddings to the question's
embedding. -/
theorem claim_C2_retrieval {V : Type} (embed : String → V) (sim : V → V → Int)
    (llm : String → String) (vector_db : VectorStore) (question : String) :
    ((ask_question embed sim llm vector_db question).2).length
        = min 3 vector_db.docs.length ∧
      ((ask_question embed sim llm vector_db question).2).Pairwise (fun a b =>
        sim (embed question) (embed b.page_content)
          ≤ sim (embed question) (embed a.page_content)) := by
  have h2 : (ask_question embed sim llm vector_db question).2
      = similarity_search embed sim vector_db question 3 := rfl
  rw [h2]
  constructor
  · unfold similarity_search
    rw [List.length_take, List.length_mergeSort]
  · unfold similarity_search
    have hsorted : (vector_db.docs.mergeSort (fun a b =>
        decide (sim (embed question) (embed b.page_content)
          ≤ sim (embed question) (embed a.page_content)))).Pairwise (fun a b =>
          decide (sim (embed question) (embed b.page_content)
            ≤ sim (embed question) (embed a.page_content)) = true) := by
      apply List.sorted_mergeSort
      · intro a b c hab hbc
        simp only [decide_eq_true_eq] at hab hbc ⊢
        exact le_trans hbc hab
      · intro a b
        simp only [Bool.or_eq_true, decide_eq_true_eq]
        exact le_total _ _
    have htake := List.Pairwise.sublist (List.take_sublist 3 _) hsorted
    exact htake.imp (fun h => by simpa using h)

/-- C3: `ask_question`'s context block is the newline-separated
concatenation of the retrieved chunks' texts in retrieval (nearest-first)
order, embedded in the fixed prompt handed to the generation model, and the
returned pair's second component is exactly the retrieved chunk list. -/
theorem claim_C3_context_and_sources {V : Type} (embed : String → V)
    (sim : V → V → Int) (llm : String → String) (vector_db : VectorStore)
    (question : String) :
    (ask_question embed sim llm vector_db question).2
        = similarity_search embed sim vector_db question 3 ∧
      (ask_question embed sim llm vector_db question).1
        = llm ("\nAnswer ONLY from the context below.\nIf not found, say \"Answer not found in the documents.\"\n\nContext:\n"
            ++ String.intercalate "\n"
              ((similarity_search embed sim vector_db question 3).map (fun d => d.page_content))
            ++ "\n\nQuestion:\n" ++ question ++ "\n\nAnswer:\n") :=
  ⟨rfl, rfl⟩

/-- C4: every chunk produced by `chunk_text` has at most 800 characters,
and consecutive chunks derived from the same source string overlap in
exactly 150 characters: the first 150 characters of the later chunk are
the 150 characters the earlier chunk holds past position 650. -/
theorem claim_C4_chunk_bounds (texts : List String) :
    (∀ c ∈ chunk_text texts, c.page_content.length ≤ 800) ∧
      ∀ t ∈ texts, List.Chain' (fun c1 c2 =>
        c2.take 150 = c1.drop 650 ∧ (c2.take 150).length = 150) (splitChunks t.data) := by
  constructor
  · intro c hc
    unfold chunk_text at hc
    obtain ⟨t, _, hc⟩ := List.mem_flatMap.mp hc
    obtain ⟨cs, hcs, rfl⟩ := List.mem_map.mp hc
    simpa using length_splitChunks_le _ cs hcs
  · intro t _
    exact splitChunks_chain t.data

/-- Witness for C4 on the concrete one-text input `["ab"]`. -/
theorem claim_C4_witness :
    ({ page_content := "ab" } : Document) ∈ chunk_text ["ab"] ∧
      ("ab" : String).length ≤ 800 := by
  have h : splitChunks ("ab".data) = ["ab".data] := by
    rw [splitChunks]
    simp
  have hmem : ({ page_content := "ab" } : Document) ∈ chunk_text ["ab"] := by
    simp [chunk_text, h]
  exact ⟨hmem, (claim_C4_chunk_bounds ["ab"]).1 _ hmem⟩

/-- C1: a text whose entity sequence is [A, B, C] (three distinct strings)
yields a graph with edges (A,B) and (B,C) labeled "related_to" and no edge
(A,C); a text whose entity sequence has length at most one contributes no
triples (and hence no edges) wherever it appears; and for two texts sharing
an entity surface string, the merged graph has exactly one node for that
string, its edge relation being the union of the two texts' edge
relations. -/
theorem claim_C1_chain_graph (ner : String → List String) (t A B C : String)
    (hner : ner t = [A, B, C]) (hAB : A ≠ B) (hBC : B ≠ C) (hAC : A ≠ C) :
    (hasEdge (build_graph (extract_triples ner [t])) A B = true ∧
        getLabel (build_graph (extract_triples ner [t])) A B = some "related_to") ∧
      (hasEdge (build_graph (extract_triples ner [t])) B C = true ∧
        getLabel (build_graph (extract_triples ner [t])) B C = some "related_to") ∧
      hasEdge (build_graph (extract_triples ner [t])) A C = false ∧
      (∀ t' ts1 ts2, (ner t').length ≤ 1 →
        extract_triples ner (ts1 ++ t' :: ts2) = extract_triples ner (ts1 ++ ts2)) ∧
      (∀ t1 t2 s, s ∈ ner t1 → s ∈ ner t2 → 2 ≤ (ner t1).length →
        (build_graph (extract_triples ner [t1, t2])).nodes.count s = 1 ∧
          ∀ u v, hasEdge (build_graph (extract_triples ner [t1, t2])) u v
            = (hasEdge (build_graph (extract_triples ner [t1])) u v
               || hasEdge (build_graph (extract_triples ner [t2])) u v)) := by
  have htr : extract_triples ner [t] = [(A, "related_to", B), (B, "related_to", C)] := by
    simp [extract_triples, hner]
  have hlab : ∀ e ∈ (build_graph (extract_triples ner [t])).edges, e.2.2 = "related_to" :=
    labels_build_graph (extract_triples_labels ner [t])
  have hedgeAB : hasEdge (build_graph (extract_triples ner [t])) A B = true := by
    rw [hasEdge_build_graph, htr]
    simp [isPair]
  have hedgeBC : hasEdge (build_graph (extract_triples ner [t])) B C = true := by
    rw [hasEdge_build_graph, htr]
    simp [isPair]
  refine ⟨⟨hedgeAB, getLabel_eq_some hedgeAB hlab⟩,
    ⟨hedgeBC, getLabel_eq_some hedgeBC hlab⟩, ?_, ?_, ?_⟩
  · rw [hasEdge_build_graph, htr]
    simp [isPair, hAB, hBC, hAC, Ne.symm hAB, Ne.symm hBC, Ne.symm hAC]
  · intro t' ts1 ts2 hlen
    have hmid : extract_triples ner [t'] = [] := by
      simp [extract_triples, zip_tail_nil hlen]
    have h1 : ts1 ++ t' :: ts2 = (ts1 ++ [t']) ++ ts2 := by simp
    rw [h1, extract_triples_append, extract_triples_append, extract_triples_append, hmid]
    simp
  · intro t1 t2 s hs1 hs2 hlen
    have hsplit : extract_triples ner [t1, t2]
        = extract_triples ner [t1] ++ extract_triples ner [t2] :=
      extract_triples_append ner [t1] [t2]
    constructor
    · obtain ⟨pr, hpr, hend⟩ := mem_zip_tail_of_mem hs1 hlen
      have htrmem : (pr.1, "related_to", pr.2) ∈ extract_triples ner [t1, t2] := by
        rw [hsplit]
        refine List.mem_append.mpr (Or.inl ?_)
        have h1 : extract_triples ner [t1]
            = ((ner t1).zip (ner t1).tail).map (fun ab => (ab.1, "related_to", ab.2)) := by
          simp [extract_triples]
        rw [h1]
        exact List.mem_map.mpr ⟨pr, hpr, rfl⟩
      have hmem : s ∈ (build_graph (extract_triples ner [t1, t2])).nodes := by
        rw [mem_nodes_build_graph]
        refine ⟨(pr.1, "related_to", pr.2), htrmem, ?_⟩
        rcases hend with h | h
        · exact Or.inl h.symm
        · exact Or.inr h.symm
      exact List.count_eq_one_of_mem (nodup_nodes_build_graph _) hmem
    · intro u v
      rw [hsplit, hasEdge_build_graph, hasEdge_build_graph, hasEdge_build_graph,
        List.any_append]

/-- Witness for C1 at a concrete NER function yielding ["A", "B", "C"]. -/
theorem claim_C1_witness :
    hasEdge (build_graph (extract_triples (fun _ => ["A", "B", "C"]) [""])) "A" "B"
      = true :=
  (claim_C1_chain_graph (fun _ => ["A", "B", "C"]) "" "A" "B" "C" rfl
    (by decide) (by decide) (by decide)).1.1

/-- C8: re-adding an edge between the same two entity strings with the
program's only label "related_to" (in either endpoint order) leaves the
graph unchanged, and `build_graph` on a triple list with duplicated or
reversed pairs equals `build_graph` on the first-occurrence deduplication
by unordered pair. The first conjunct shows the label hypothesis holds for
every triple list the program constructs. -/
theorem claim_C8_idempotent_dedup (ts : List (String × String × String))
    (hts : ∀ tr ∈ ts, tr.2.1 = "related_to") :
    (∀ (ner : String → List String) (texts : List String),
        ∀ tr ∈ extract_triples ner texts, tr.2.1 = "related_to") ∧
      (∀ (G : Graph) (s o : String),
        add_edge (add_edge G s o "related_to") s o "related_to"
          = add_edge G s o "related_to") ∧
      (∀ (G : Graph) (s o : String),
        add_edge (add_edge G s o "related_to") o s "related_to"
          = add_edge G s o "related_to") ∧
      build_graph ts = build_graph (dedupPairs ts) := by
  refine ⟨extract_triples_labels, ?_, ?_, ?_⟩
  · intro G s o
    exact add_edge_eq_self (mem_nodes_add_edge.mpr (Or.inr (Or.inl rfl)))
      (mem_nodes_add_edge.mpr (Or.inr (Or.inr rfl)))
      (hasEdge_add_edge_self G s o _) add_edge_label_matching
  · intro G s o
    refine add_edge_eq_self (mem_nodes_add_edge.mpr (Or.inr (Or.inr rfl)))
      (mem_nodes_add_edge.mpr (Or.inr (Or.inl rfl))) ?_ ?_
    · rw [hasEdge_symm]
      exact hasEdge_add_edge_self G s o _
    · intro e he hm
      rw [isPair_symm] at hm
      exact add_edge_label_matching e he hm
  · unfold build_graph
    exact foldl_dedupPairs "related_to" ts hts _ (WFp_empty _)

/-- Witness for C8 on a concrete list with a reversed duplicate pair. -/
theorem claim_C8_witness :
    build_graph [("a", "related_to", "b"), ("b", "related_to", "a")]
      = build_graph (dedupPairs [("a", "related_to", "b"), ("b", "related_to", "a")]) :=
  (claim_C8_idempotent_dedup
    [("a", "related_to", "b"), ("b", "related_to", "a")] (by decide)).2.2.2

end RAGChatbot
